import Mathlib

/-!
# Verification of the punch-card time tracker

This development embeds the `punch` command-line time tracker in Lean 4 and
proves properties of its day state machine, time-accounting derivations,
ledger accumulation and command layer.

The command layer (`main.rs`) is translated directly from the source.
The `Day` and `Config` entities live in modules (`units::day`,
`utils::config`) that are not part of the provided sources, so they are
modelled from the specification (its data model in §3, state-machine table
in §4.1, derivations in §4.2 and ledger rule in §4.3); every such
definition carries a doc comment saying so.

Timestamps are modelled as natural numbers counting seconds.
-/

namespace Punch

/-- Modelled from the spec: an Interval is a `{start, end: Option}` pair
representing one contiguous span of working or being on break; `stop = none`
is the currently open span (the spec calls the field `end`, which is a Lean
keyword). -/
structure Interval where
  start : Nat
  stop : Option Nat
deriving DecidableEq

/-- Modelled from the spec: the Day Record of §3 — date key, chronological
work and break interval lists, optional end time, per-day target, notes and
summary entries.  `start_task` records the task label passed to `Day::new`
by `punch_in` in `main.rs`. -/
structure Day where
  date : Nat
  start_task : String
  work_intervals : List Interval
  break_intervals : List Interval
  end_time : Option Nat
  target_minutes : Nat
  notes : List (Nat × String)
  summary_entries : List (String × String × String × String)
deriving DecidableEq

/-- Modelled from the spec: the error kinds of §7 that the core state
machine and derivations can produce. -/
inductive DayError where
  | invalidTransition : String → DayError
  | alreadyEnded : DayError
  | dayNotEnded : DayError
deriving DecidableEq

/-- Modelled from the spec: the three states of the day state machine
(§4.1). -/
inductive DayState where
  | Working : DayState
  | OnBreak : DayState
  | Ended : DayState
deriving DecidableEq

/-- Whether the day has been closed (`end_time` set); the method
`Day::has_ended` called by `main.rs`. -/
def Day.has_ended (d : Day) : Bool :=
  d.end_time.isSome

/-- True when the last interval of the list is open (`stop = none`). -/
def lastIsOpen (l : List Interval) : Bool :=
  match l.getLast? with
  | some i => i.stop.isNone
  | none => false

/-- Modelled from the spec: the state is derived — `Ended` once `end_time`
is set, `OnBreak` while the last break interval is open, `Working`
otherwise (§4.1, §9). -/
def Day.state (d : Day) : DayState :=
  if d.has_ended then DayState.Ended
  else if lastIsOpen d.break_intervals then DayState.OnBreak
  else DayState.Working

/-- Modelled from the spec: `Day::new` — initial state `Working`, entered at
construction with one open work interval starting at the punch-in
timestamp (§4.1). -/
def Day.new (t : Nat) (task : String) (target : Nat) : Day :=
  { date := t
    start_task := task
    work_intervals := [⟨t, none⟩]
    break_intervals := []
    end_time := none
    target_minutes := target
    notes := []
    summary_entries := [] }

/-- Close the last interval of the list at time `t`. -/
def closeLast : List Interval → Nat → List Interval
  | [], _ => []
  | [i], t => [{ i with stop := some t }]
  | i :: is, t => i :: closeLast is t

/-- Modelled from the spec: `startBreak(t)` — precondition state = Working
and `t` at or after the open work interval's start; closes the current work
interval at `t`, opens a new break interval at `t`; otherwise fails with
`InvalidTransition` (§4.1). -/
def Day.start_break_at (d : Day) (t : Nat) : Except DayError Day :=
  match d.state with
  | DayState.Ended => .error (.invalidTransition "day already ended")
  | DayState.OnBreak => .error (.invalidTransition "already on break")
  | DayState.Working =>
    match d.work_intervals.getLast? with
    | none => .error (.invalidTransition "no open work interval")
    | some i =>
      if t < i.start then .error (.invalidTransition "time before open interval start")
      else .ok { d with
        work_intervals := closeLast d.work_intervals t
        break_intervals := d.break_intervals ++ [⟨t, none⟩] }

/-- Modelled from the spec: `endCurrentBlock(t)` (resume) — precondition
state = OnBreak and `t` at or after the open break interval's start; closes
the current break interval at `t`, opens a new work interval at `t`;
otherwise fails with `InvalidTransition` (§4.1). -/
def Day.end_current_block_at (d : Day) (t : Nat) : Except DayError Day :=
  match d.state with
  | DayState.Ended => .error (.invalidTransition "day already ended")
  | DayState.Working => .error (.invalidTransition "not currently on break")
  | DayState.OnBreak =>
    match d.break_intervals.getLast? with
    | none => .error (.invalidTransition "no open break interval")
    | some i =>
      if t < i.start then .error (.invalidTransition "time before open interval start")
      else .ok { d with
        break_intervals := closeLast d.break_intervals t
        work_intervals := d.work_intervals ++ [⟨t, none⟩] }

/-- Modelled from the spec: `endDay(t)` — closes whichever interval is open
at `t` and sets `end_time = t`; fails with `AlreadyEnded` if the day is
already `Ended` (§4.1). -/
def Day.end_day_at (d : Day) (t : Nat) : Except DayError Day :=
  match d.state with
  | DayState.Ended => .error .alreadyEnded
  | DayState.Working =>
    match d.work_intervals.getLast? with
    | none => .ok { d with end_time := some t }
    | some i =>
      if t < i.start then .error (.invalidTransition "time before open interval start")
      else .ok { d with
        work_intervals := closeLast d.work_intervals t
        end_time := some t }
  | DayState.OnBreak =>
    match d.break_intervals.getLast? with
    | none => .ok { d with end_time := some t }
    | some i =>
      if t < i.start then .error (.invalidTransition "time before open interval start")
      else .ok { d with
        break_intervals := closeLast d.break_intervals t
        end_time := some t }

/-- Modelled from the spec: `addNote(t, msg)` — always legal, appends to
`notes` (§4.1). -/
def Day.add_note (d : Day) (t : Nat) (msg : String) : Day :=
  { d with notes := d.notes ++ [(t, msg)] }

/-- Modelled from the spec: `addSummary(category, project, task, desc)` —
always legal, appends an entry (§4.1). -/
def Day.add_summary (d : Day) (c p task desc : String) : Day :=
  { d with summary_entries := d.summary_entries ++ [(c, p, task, desc)] }

/-- Duration in seconds contributed by one interval; an open interval
contributes nothing (the derivations that use this are only defined on
ended days, where every interval is closed). -/
def Interval.seconds (i : Interval) : Nat :=
  match i.stop with
  | some e => e - i.start
  | none => 0

/-- Total duration in seconds of a list of intervals. -/
def totalSeconds (l : List Interval) : Nat :=
  (l.map Interval.seconds).sum

/-- Value of `totalWorkMinutes`: sum of the work interval durations,
truncated to whole minutes at the point of summation (spec §4.2). -/
def Day.time_done_val (d : Day) : Int :=
  ((totalSeconds d.work_intervals / 60 : Nat) : Int)

/-- Value of `totalBreakMinutes`, truncated at the point of summation. -/
def Day.break_time_val (d : Day) : Int :=
  ((totalSeconds d.break_intervals / 60 : Nat) : Int)

/-- Value of `timeLeftMinutes = target_minutes − timeDoneMinutes`; may be
negative, meaning overtime (spec §4.2). -/
def Day.time_left_val (d : Day) : Int :=
  (d.target_minutes : Int) - d.time_done_val

/-- Modelled from the spec: `totalWorkMinutes` (`Day::get_time_done` in the
source), defined only when the day has ended, failing with `DayNotEnded`
otherwise (§4.2). -/
def Day.get_time_done (d : Day) : Except DayError Int :=
  if d.has_ended then .ok d.time_done_val else .error .dayNotEnded

/-- Modelled from the spec: `totalBreakMinutes`
(`Day::get_total_break_time`), defined only when the day has ended (§4.2). -/
def Day.get_total_break_time (d : Day) : Except DayError Int :=
  if d.has_ended then .ok d.break_time_val else .error .dayNotEnded

/-- Modelled from the spec: `timeLeftMinutes` (`Day::get_time_left`),
defined only when the day has ended (§4.2). -/
def Day.get_time_left (d : Day) : Except DayError Int :=
  if d.has_ended then .ok d.time_left_val else .error .dayNotEnded

/-- Modelled from the spec: the Schedule Ledger (`Config` in the source) —
daily target, default start-task label and the signed cumulative
`minutes_behind` counter (§3). -/
structure Config where
  day_in_minutes : Nat
  default_punch_in_task : String
  minutes_behind : Int
deriving DecidableEq

/-- Modelled from the spec: `updateMinutesBehind(timeLeftMinutes)` adds
`timeLeftMinutes` to the running `minutes_behind` counter (§4.3). -/
def Config.update_minutes_behind (c : Config) (timeLeftMinutes : Int) : Config :=
  { c with minutes_behind := c.minutes_behind + timeLeftMinutes }

/-- Modelled from the spec: the non-negative "since last fell behind" view,
defined as `max(0, minutes_behind)` (§4.3). -/
def Config.minutes_behind_non_neg (c : Config) : Int :=
  max 0 c.minutes_behind

/-- Apply a whole sequence of accumulations to the ledger. -/
def Config.apply_updates (c : Config) (ts : List Int) : Config :=
  ts.foldl Config.update_minutes_behind c

/-!
## The command layer, translated from `main.rs`

Persistence (`read_day`/`write_day`, `get_config`/`update_config`) is an
external collaborator; it is modelled by an explicit store holding today's
Day Record (if any) and the Ledger.  A command returns `none` exactly when
the original panics (a failed `.expect`/`.unwrap` or the `panic!` in
`update_time_behind`); otherwise it returns the final store together with
the final in-memory day and in-memory config of the command body, so that
theorems can compare what was persisted with what was computed.
-/

/-- The persistent store: today's Day Record (if one was written) and the
Ledger.  `read_day` succeeds exactly when `stored_day` is `some`. -/
structure CmdState where
  stored_day : Option Day
  stored_config : Config
deriving DecidableEq

/-- Translated from `summarise_time` (main.rs:257-267): reads
`get_time_left`, `get_total_break_time` and `get_time_done` (each
`.expect`ed / `.unwrap`ped — `none` models the panic) and applies
`update_minutes_behind(time_left)` to the in-memory config. -/
def summarise_time (day : Day) (config : Config) : Option Config :=
  match day.get_time_left, day.get_total_break_time, day.get_time_done with
  | .ok tl, .ok _, .ok _ => some (config.update_minutes_behind tl)
  | _, _, _ => none

/-- Translated from `update_time_behind` (main.rs:270-279): if the day has
ended, load the config, run `summarise_time` and persist the config with
`update_config`; otherwise the original panics (`none`). -/
def update_time_behind (day : Day) (s : CmdState) : Option (CmdState × Day × Config) :=
  if day.has_ended then
    match summarise_time day s.stored_config with
    | some config1 => some ({ s with stored_config := config1 }, day, config1)
    | none => none
  else none

/-- Translated from `punch_out` (main.rs:154-163): on a successful
`end_day_at`, write the day and run `update_time_behind`; otherwise print
"already punched out" and change nothing. -/
def punch_out (now : Nat) (day : Day) (s : CmdState) : Option (CmdState × Day × Config) :=
  match day.end_day_at now with
  | .ok day1 => update_time_behind day1 { s with stored_day := some day1 }
  | .error _ => some (s, day, s.stored_config)

/-- Translated from `take_break` (main.rs:165-179): on a successful
`start_break_at`, write the day; then, when the day has NOT ended, end it
in memory (the `.expect` panic is `none`); then load the config and run
`summarise_time` on the in-memory copies.  Neither the force-ended day nor
the updated config is persisted.  On a failed `start_break_at` nothing
changes. -/
def take_break (now : Nat) (day : Day) (s : CmdState) : Option (CmdState × Day × Config) :=
  match day.start_break_at now with
  | .error _ => some (s, day, s.stored_config)
  | .ok day1 =>
    match (if day1.has_ended then .ok day1 else day1.end_day_at now : Except DayError Day) with
    | .error _ => none
    | .ok day2 =>
      match summarise_time day2 s.stored_config with
      | some config1 => some ({ s with stored_day := some day1 }, day2, config1)
      | none => none

/-- Translated from `resume` (main.rs:181-194): the mirror image of
`take_break` built on `end_current_block_at`. -/
def resume (now : Nat) (day : Day) (s : CmdState) : Option (CmdState × Day × Config) :=
  match day.end_current_block_at now with
  | .error _ => some (s, day, s.stored_config)
  | .ok day1 =>
    match (if day1.has_ended then .ok day1 else day1.end_day_at now : Except DayError Day) with
    | .error _ => none
    | .ok day2 =>
      match summarise_time day2 s.stored_config with
      | some config1 => some ({ s with stored_day := some day1 }, day2, config1)
      | none => none

/-- Translated from `summary` (main.rs:217-225): tries `end_day_at` and
ignores the result, then runs `summarise_time` on the in-memory day and
config.  Nothing is persisted: neither `write_day` nor `update_config` is
called. -/
def summary (now : Nat) (day : Day) (s : CmdState) : Option (CmdState × Day × Config) :=
  let day1 := match day.end_day_at now with
    | .ok d => d
    | .error _ => day
  match summarise_time day1 s.stored_config with
  | some config1 => some (s, day1, config1)
  | none => none

/-- Translated from `get_other_args_for_punch_in` (main.rs:123-137): the
task label is the first extra argument, or the config default when none is
given; the target always comes from the config. -/
def get_other_args_for_punch_in (config : Config) (other_args : List String) : String × Nat :=
  match other_args with
  | [] => (config.default_punch_in_task, config.day_in_minutes)
  | a :: _ => (a, config.day_in_minutes)

/-- Translated from `punch_in` (main.rs:111-121): if `read_day` succeeds
(a Day Record already exists for the date) print "You've already clocked in
for the day!" and do nothing — the second component is `none` and the store
is returned unchanged.  Otherwise construct `Day::new` and write it. -/
def punch_in (now : Nat) (other_args : List String) (s : CmdState) : CmdState × Option Day :=
  match s.stored_day with
  | some _ => (s, none)
  | none =>
    let parsed := get_other_args_for_punch_in s.stored_config other_args
    let new_day := Day.new now parsed.1 parsed.2
    ({ s with stored_day := some new_day }, some new_day)

/-- Translated from the `SubCommand` enum of main.rs:18-32. -/
inductive SubCommand where
  | In : List String → SubCommand
  | Out : List String → SubCommand
  | Pause : List String → SubCommand
  | Resume : List String → SubCommand
  | Summary : List String → SubCommand
  | View : List String → SubCommand
  | Edit : List String → SubCommand
  | Note : List String → SubCommand
  | EditConfig : List String → SubCommand
  | ViewConfig : List String → SubCommand
  | AddSummary : List String → SubCommand
  | Invalid : String → SubCommand
deriving DecidableEq

/-- Translated from `SubCommand::from_string` (main.rs:35-50). -/
def SubCommand.from_string (name : String) (other_args : List String) : SubCommand :=
  match name.trim with
  | "in" => SubCommand.In other_args
  | "out" => SubCommand.Out other_args
  | "pause" => SubCommand.Pause other_args
  | "resume" => SubCommand.Resume other_args
  | "summary" => SubCommand.Summary other_args
  | "view" => SubCommand.View other_args
  | "edit" => SubCommand.Edit other_args
  | "note" => SubCommand.Note other_args
  | "edit-config" => SubCommand.EditConfig other_args
  | "view-config" => SubCommand.ViewConfig other_args
  | "add-summary" => SubCommand.AddSummary other_args
  | other => SubCommand.Invalid other

/-- Translated from the argument handling of `main` (main.rs:61-71):
`env_args[1]` is the command name and `env_args[2..]` the remaining
arguments.  The original indexes `env_args[1]` unconditionally, which
panics when fewer than two arguments are present; `none` models that
panic. -/
def main_parse_args (env_args : List String) : Option SubCommand :=
  match env_args with
  | _ :: name :: rest => some (SubCommand.from_string name rest)
  | _ => none

/-!
## Transition sequences and interval invariants

`DayOp` packages the state-machine operations of §4.1 so that properties
quantified over "all valid transition sequences" can be stated: a sequence
is valid when every operation succeeds.
-/

/-- One state-machine operation of §4.1. -/
inductive DayOp where
  | startBreak : Nat → DayOp
  | endBlock : Nat → DayOp
  | endDay : Nat → DayOp
  | addNote : Nat → String → DayOp
  | addSummary : String → String → String → String → DayOp
deriving DecidableEq

/-- Apply one operation to a day. -/
def Day.applyOp (d : Day) : DayOp → Except DayError Day
  | .startBreak t => d.start_break_at t
  | .endBlock t => d.end_current_block_at t
  | .endDay t => d.end_day_at t
  | .addNote t msg => .ok (d.add_note t msg)
  | .addSummary c p task desc => .ok (d.add_summary c p task desc)

/-- Run a sequence of operations, failing as soon as one fails: a valid
transition sequence is one on which this returns `.ok`. -/
def Day.runOps (d : Day) : List DayOp → Except DayError Day
  | [] => .ok d
  | op :: rest =>
    match d.applyOp op with
    | .ok d1 => d1.runOps rest
    | .error e => .error e

/-- Two intervals overlap in time when they share more than an endpoint;
an open interval extends indefinitely to the right. -/
def Interval.overlapsB (a b : Interval) : Bool :=
  match a.stop, b.stop with
  | some ea, some eb => decide (a.start < eb) && decide (b.start < ea)
  | some ea, none => decide (b.start < ea)
  | none, some eb => decide (a.start < eb)
  | none, none => true

/-- Every interval of the list is closed, well-formed and ends by `f`. -/
def closedUpto (f : Nat) (l : List Interval) : Prop :=
  ∀ i ∈ l, ∃ e, i.stop = some e ∧ i.start ≤ e ∧ e ≤ f

/-- No work interval overlaps any break interval. -/
def NoOverlap (d : Day) : Prop :=
  ∀ i ∈ d.work_intervals, ∀ j ∈ d.break_intervals, i.overlapsB j = false

/-- The inductive invariant of a day punched in at `t0`: intervals never
overlap, and the record is in one of three shapes — `Working` (last work
interval open at the frontier `f`), `OnBreak` (last break interval open at
`f`) or `Ended` (everything closed, `end_time = f`) — with all closed
intervals well-formed and ending by `f`, and the closed durations tiling
exactly `f - t0` seconds. -/
def intervalsInv (t0 : Nat) (d : Day) : Prop :=
  NoOverlap d ∧
  ((∃ f w, t0 ≤ f ∧ d.end_time = none ∧
      d.work_intervals = w ++ [⟨f, none⟩] ∧ closedUpto f w ∧
      closedUpto f d.break_intervals ∧
      totalSeconds d.work_intervals + totalSeconds d.break_intervals = f - t0) ∨
   (∃ f b, t0 ≤ f ∧ d.end_time = none ∧
      d.break_intervals = b ++ [⟨f, none⟩] ∧ closedUpto f b ∧
      closedUpto f d.work_intervals ∧
      totalSeconds d.work_intervals + totalSeconds d.break_intervals = f - t0) ∨
   (∃ f, t0 ≤ f ∧ d.end_time = some f ∧
      closedUpto f d.work_intervals ∧ closedUpto f d.break_intervals ∧
      totalSeconds d.work_intervals + totalSeconds d.break_intervals = f - t0))

/-!
## Helper lemmas
-/

/-- Decidable equality on `Except`, so that concrete runs of the model can
be checked by `decide`. -/
instance {ε α : Type} [DecidableEq ε] [DecidableEq α] : DecidableEq (Except ε α) := fun
  | .error e1, .error e2 => decidable_of_iff (e1 = e2) (by simp)
  | .error _, .ok _ => isFalse (by intro h; cases h)
  | .ok _, .error _ => isFalse (by intro h; cases h)
  | .ok a, .ok b => decidable_of_iff (a = b) (by simp)

/-- Inversion for `summarise_time`: a successful run reads some
`timeLeftMinutes` from the day and applies exactly one
`update_minutes_behind` with it. -/
theorem summarise_time_eq_some {d : Day} {c c' : Config}
    (h : summarise_time d c = some c') :
    ∃ tl, d.get_time_left = .ok tl ∧ c' = c.update_minutes_behind tl := by
  unfold summarise_time at h
  split at h
  · next tl x y htl hx hy =>
    exact ⟨tl, htl, (Option.some.inj h).symm⟩
  · exact absurd h (by simp)

/-- On an ended day all three derivations succeed, so `summarise_time`
returns exactly one accumulation of the day's `timeLeftMinutes`. -/
theorem summarise_time_of_ended {d : Day} (h : d.has_ended = true) (c : Config) :
    summarise_time d c = some (c.update_minutes_behind d.time_left_val) := by
  unfold summarise_time Day.get_time_left Day.get_total_break_time Day.get_time_done
  rw [h]
  simp

/-- The last element of `l ++ [a]` is `a`. -/
theorem getLast?_append_single {α : Type} (l : List α) (a : α) :
    (l ++ [a]).getLast? = some a := by
  rw [List.getLast?_append_cons]
  rfl

/-- A list ending in a freshly opened interval has an open last interval. -/
theorem lastIsOpen_append_single (l : List Interval) (i : Interval) :
    lastIsOpen (l ++ [i]) = i.stop.isNone := by
  simp [lastIsOpen, getLast?_append_single]

/-- `closeLast` on a list ending in `i` closes exactly `i`. -/
theorem closeLast_concat : ∀ (l : List Interval) (i : Interval) (t : Nat),
    closeLast (l ++ [i]) t = l ++ [{ i with stop := some t }]
  | [], _, _ => rfl
  | a :: l, i, t => by
    have ih := closeLast_concat l i t
    cases l with
    | nil => rfl
    | cons b bs =>
      show a :: closeLast ((b :: bs) ++ [i]) t = _
      rw [ih]
      rfl

/-- `closeLast` preserves length. -/
theorem length_closeLast : ∀ (l : List Interval) (t : Nat),
    (closeLast l t).length = l.length
  | [], _ => rfl
  | [_], _ => rfl
  | a :: b :: bs, t => by
    show (a :: closeLast (b :: bs) t).length = _
    simp [length_closeLast (b :: bs) t]

/-- `closeLast` closes the last interval of the list at `t`. -/
theorem getLast?_closeLast (t : Nat) : ∀ (l : List Interval) (i : Interval),
    l.getLast? = some i →
    (closeLast l t).getLast? = some { i with stop := some t } := by
  intro l
  induction l with
  | nil => intro i h; simp at h
  | cons a l ih =>
    intro i h
    cases l with
    | nil =>
      have ha : a = i := by simpa using h
      subst ha
      rfl
    | cons b bs =>
      rw [List.getLast?_cons_cons] at h
      have ih' := ih i h
      show (a :: closeLast (b :: bs) t).getLast? = _
      cases hX : closeLast (b :: bs) t with
      | nil =>
        have hlen := length_closeLast (b :: bs) t
        rw [hX] at hlen
        simp at hlen
      | cons c cs =>
        rw [hX] at ih'
        rw [List.getLast?_cons_cons, ih']

/-- A closed interval ending by `t` does not overlap an interval opened
at `t`. -/
theorem overlapsB_closed_open {i : Interval} {ei t : Nat}
    (hi : i.stop = some ei) (h : ei ≤ t) :
    i.overlapsB ⟨t, none⟩ = false := by
  unfold Interval.overlapsB
  rw [hi]
  exact decide_eq_false (Nat.not_lt.mpr h)

/-- An interval opened at `t` does not overlap a closed interval ending
by `t`. -/
theorem overlapsB_open_closed {j : Interval} {ej t : Nat}
    (hj : j.stop = some ej) (h : ej ≤ t) :
    Interval.overlapsB ⟨t, none⟩ j = false := by
  unfold Interval.overlapsB
  rw [hj]
  exact decide_eq_false (Nat.not_lt.mpr h)

/-- Two closed intervals do not overlap when the second ends before the
first starts. -/
theorem overlapsB_right_ends_first {i j : Interval} {ei ej : Nat}
    (hi : i.stop = some ei) (hj : j.stop = some ej) (h : ej ≤ i.start) :
    i.overlapsB j = false := by
  unfold Interval.overlapsB
  rw [hi, hj]
  show (decide (i.start < ej) && decide (j.start < ei)) = false
  rw [decide_eq_false (Nat.not_lt.mpr h), Bool.false_and]

/-- Two closed intervals do not overlap when the first ends before the
second starts. -/
theorem overlapsB_left_ends_first {i j : Interval} {ei ej : Nat}
    (hi : i.stop = some ei) (hj : j.stop = some ej) (h : ei ≤ j.start) :
    i.overlapsB j = false := by
  unfold Interval.overlapsB
  rw [hi, hj]
  show (decide (i.start < ej) && decide (j.start < ei)) = false
  rw [decide_eq_false (Nat.not_lt.mpr h), Bool.and_false]

/-- `closedUpto` is monotone in the bound. -/
theorem closedUpto_mono {f g : Nat} {l : List Interval}
    (h : closedUpto f l) (hfg : f ≤ g) : closedUpto g l := by
  intro i hi
  obtain ⟨e, he, h1, h2⟩ := h i hi
  exact ⟨e, he, h1, Nat.le_trans h2 hfg⟩

/-- The empty list is closed up to any bound. -/
theorem closedUpto_nil (f : Nat) : closedUpto f [] := by
  intro i hi
  simp at hi

/-- Appending an interval `[st, t]` to a list closed up to `f ≤ t` yields a
list closed up to `t`. -/
theorem closedUpto_append_closed {f t st : Nat} {l : List Interval}
    (h : closedUpto f l) (hft : f ≤ t) (hst : st ≤ t) :
    closedUpto t (l ++ [⟨st, some t⟩]) := by
  intro i hi
  rcases List.mem_append.mp hi with hl | hr
  · obtain ⟨e, he, h1, h2⟩ := h i hl
    exact ⟨e, he, h1, Nat.le_trans h2 hft⟩
  · rw [List.mem_singleton] at hr
    subst hr
    exact ⟨t, rfl, hst, Nat.le_refl t⟩

/-- A list all of whose intervals are closed has no open last interval. -/
theorem lastIsOpen_eq_false_of_closedUpto {f : Nat} {l : List Interval}
    (h : closedUpto f l) : lastIsOpen l = false := by
  unfold lastIsOpen
  cases hl : l.getLast? with
  | none => rfl
  | some i =>
    have hd := List.dropLast_append_getLast? i (Option.mem_def.mpr hl)
    have hmem : i ∈ l := hd ▸ List.mem_append_right l.dropLast (List.mem_singleton_self i)
    obtain ⟨e, he, _, _⟩ := h i hmem
    show i.stop.isNone = false
    rw [he]
    rfl

/-- `totalSeconds` distributes over append. -/
theorem totalSeconds_append (l1 l2 : List Interval) :
    totalSeconds (l1 ++ l2) = totalSeconds l1 + totalSeconds l2 := by
  simp [totalSeconds]

/-- `totalSeconds` of a singleton. -/
theorem totalSeconds_single (i : Interval) : totalSeconds [i] = i.seconds := by
  simp [totalSeconds]

/-- A day whose state is not `Ended` has no end time. -/
theorem end_time_none_of_state_ne_ended {d : Day} (h : d.state ≠ DayState.Ended) :
    d.end_time = none := by
  cases he : d.end_time with
  | none => rfl
  | some e => exact absurd (by simp [Day.state, Day.has_ended, he]) h

/-- Determining `OnBreak` from the record's parts. -/
theorem state_eq_onbreak_parts {d : Day} (hend : d.end_time = none)
    (hb : lastIsOpen d.break_intervals = true) : d.state = DayState.OnBreak := by
  simp [Day.state, Day.has_ended, hend, hb]

/-- Determining `Working` from the record's parts. -/
theorem state_eq_working_parts {d : Day} (hend : d.end_time = none)
    (hb : lastIsOpen d.break_intervals = false) : d.state = DayState.Working := by
  simp [Day.state, Day.has_ended, hend, hb]

/-- Inversion for a successful `start_break_at`: the day was `Working`,
`t` is not before the open work interval's start, and the result closes the
last work interval at `t` and opens a break interval at `t`. -/
theorem start_break_ok_shape {d d1 : Day} {t : Nat}
    (h : d.start_break_at t = .ok d1) :
    d.state = DayState.Working ∧
    ∃ i, d.work_intervals.getLast? = some i ∧ i.start ≤ t ∧
      d1 = { d with work_intervals := closeLast d.work_intervals t
                    break_intervals := d.break_intervals ++ [⟨t, none⟩] } := by
  unfold Day.start_break_at at h
  split at h
  · exact Except.noConfusion h
  · exact Except.noConfusion h
  · next hst =>
    split at h
    · exact Except.noConfusion h
    · next i hlast =>
      split at h
      · exact Except.noConfusion h
      · next hlt =>
        exact ⟨hst, i, hlast, Nat.le_of_not_lt hlt, (Except.ok.inj h).symm⟩

/-- Inversion for a successful `end_current_block_at` (resume). -/
theorem end_block_ok_shape {d d1 : Day} {t : Nat}
    (h : d.end_current_block_at t = .ok d1) :
    d.state = DayState.OnBreak ∧
    ∃ i, d.break_intervals.getLast? = some i ∧ i.start ≤ t ∧
      d1 = { d with break_intervals := closeLast d.break_intervals t
                    work_intervals := d.work_intervals ++ [⟨t, none⟩] } := by
  unfold Day.end_current_block_at at h
  split at h
  · exact Except.noConfusion h
  · exact Except.noConfusion h
  · next hst =>
    split at h
    · exact Except.noConfusion h
    · next i hlast =>
      split at h
      · exact Except.noConfusion h
      · next hlt =>
        exact ⟨hst, i, hlast, Nat.le_of_not_lt hlt, (Except.ok.inj h).symm⟩

/-- Inversion for a successful `end_day_at`: the day was live, and the open
interval (if any) of the live list was closed at `t` with `end_time`
stamped. -/
theorem end_day_ok_shape {d d1 : Day} {t : Nat}
    (h : d.end_day_at t = .ok d1) :
    (d.state = DayState.Working ∧
      ((d.work_intervals.getLast? = none ∧ d1 = { d with end_time := some t }) ∨
       (∃ i, d.work_intervals.getLast? = some i ∧ i.start ≤ t ∧
         d1 = { d with work_intervals := closeLast d.work_intervals t
                       end_time := some t }))) ∨
    (d.state = DayState.OnBreak ∧
      ((d.break_intervals.getLast? = none ∧ d1 = { d with end_time := some t }) ∨
       (∃ i, d.break_intervals.getLast? = some i ∧ i.start ≤ t ∧
         d1 = { d with break_intervals := closeLast d.break_intervals t
                       end_time := some t }))) := by
  unfold Day.end_day_at at h
  split at h
  · exact Except.noConfusion h
  · next hst =>
    split at h
    · next hnone =>
      exact Or.inl ⟨hst, Or.inl ⟨hnone, (Except.ok.inj h).symm⟩⟩
    · next i hlast =>
      split at h
      · exact Except.noConfusion h
      · next hlt =>
        exact Or.inl ⟨hst, Or.inr ⟨i, hlast, Nat.le_of_not_lt hlt,
          (Except.ok.inj h).symm⟩⟩
  · next hst =>
    split at h
    · next hnone =>
      exact Or.inr ⟨hst, Or.inl ⟨hnone, (Except.ok.inj h).symm⟩⟩
    · next i hlast =>
      split at h
      · exact Except.noConfusion h
      · next hlt =>
        exact Or.inr ⟨hst, Or.inr ⟨i, hlast, Nat.le_of_not_lt hlt,
          (Except.ok.inj h).symm⟩⟩

/-- A successful `end_day_at` always sets `end_time` to the supplied
timestamp. -/
theorem end_day_ok_end_time {d d1 : Day} {t : Nat}
    (h : d.end_day_at t = .ok d1) : d1.end_time = some t := by
  unfold Day.end_day_at at h
  split at h
  · exact Except.noConfusion h
  · split at h
    · have e := Except.ok.inj h; subst e; rfl
    · split at h
      · exact Except.noConfusion h
      · have e := Except.ok.inj h; subst e; rfl
  · split at h
    · have e := Except.ok.inj h; subst e; rfl
    · split at h
      · exact Except.noConfusion h
      · have e := Except.ok.inj h; subst e; rfl

/-- `end_day_at` on an open day whose open interval is the last break
interval: it closes that interval and stamps `end_time`. -/
theorem end_day_of_shape_onbreak {d : Day} {l : List Interval} {tb t : Nat}
    (hend : d.end_time = none) (hb : d.break_intervals = l ++ [⟨tb, none⟩])
    (hle : tb ≤ t) :
    d.end_day_at t = .ok { d with break_intervals := l ++ [⟨tb, some t⟩]
                                  end_time := some t } := by
  have hst : d.state = DayState.OnBreak :=
    state_eq_onbreak_parts hend (by rw [hb, lastIsOpen_append_single]; rfl)
  unfold Day.end_day_at
  rw [hst, hb, getLast?_append_single]
  simp [Nat.not_lt.mpr hle, closeLast_concat]

/-- `end_day_at` on an open day whose open interval is the last work
interval. -/
theorem end_day_of_shape_working {d : Day} {l : List Interval} {tw t : Nat}
    (hend : d.end_time = none) (hw : d.work_intervals = l ++ [⟨tw, none⟩])
    (hbreak : lastIsOpen d.break_intervals = false) (hle : tw ≤ t) :
    d.end_day_at t = .ok { d with work_intervals := l ++ [⟨tw, some t⟩]
                                  end_time := some t } := by
  have hst : d.state = DayState.Working := state_eq_working_parts hend hbreak
  unfold Day.end_day_at
  rw [hst, hw, getLast?_append_single]
  simp [Nat.not_lt.mpr hle, closeLast_concat]

/-- The full run of `take_break` after a successful `start_break_at`: the
persisted record is the still-open `d1`, while `endDay` and the ledger
accumulation run on in-memory copies only. -/
theorem take_break_ok_run {d d1 : Day} {t : Nat} (s : CmdState)
    (hok : d.start_break_at t = .ok d1) :
    d1.end_time = none ∧ d1.state = DayState.OnBreak ∧
    take_break t d s =
      some ({ s with stored_day := some d1 },
            { d1 with break_intervals := d.break_intervals ++ [⟨t, some t⟩]
                      end_time := some t },
            s.stored_config.update_minutes_behind
              (Day.time_left_val
                { d1 with break_intervals := d.break_intervals ++ [⟨t, some t⟩]
                          end_time := some t })) := by
  obtain ⟨hW, i, hlast, hle, hd1⟩ := start_break_ok_shape hok
  have hendd : d.end_time = none :=
    end_time_none_of_state_ne_ended (by simp [hW])
  have hend1 : d1.end_time = none := by rw [hd1]; exact hendd
  have hbreak1 : d1.break_intervals = d.break_intervals ++ [⟨t, none⟩] := by
    rw [hd1]
  have hst1 : d1.state = DayState.OnBreak :=
    state_eq_onbreak_parts hend1 (by rw [hbreak1, lastIsOpen_append_single]; rfl)
  have hhe1 : d1.has_ended = false := by simp [Day.has_ended, hend1]
  have hendday := end_day_of_shape_onbreak hend1 hbreak1 (Nat.le_refl t)
  have hhe2 : Day.has_ended
      { d1 with break_intervals := d.break_intervals ++ [⟨t, some t⟩]
                end_time := some t } = true := rfl
  refine ⟨hend1, hst1, ?_⟩
  unfold take_break
  rw [hok]
  simp only [hhe1, Bool.false_eq_true, if_false, hendday,
    summarise_time_of_ended hhe2]

/-- The full run of `resume` after a successful `end_current_block_at`. -/
theorem resume_ok_run {d d1 : Day} {t : Nat} (s : CmdState)
    (hok : d.end_current_block_at t = .ok d1) :
    d1.end_time = none ∧ d1.state = DayState.Working ∧
    resume t d s =
      some ({ s with stored_day := some d1 },
            { d1 with work_intervals := d.work_intervals ++ [⟨t, some t⟩]
                      end_time := some t },
            s.stored_config.update_minutes_behind
              (Day.time_left_val
                { d1 with work_intervals := d.work_intervals ++ [⟨t, some t⟩]
                          end_time := some t })) := by
  obtain ⟨hB, i, hlast, hle, hd1⟩ := end_block_ok_shape hok
  have hendd : d.end_time = none :=
    end_time_none_of_state_ne_ended (by simp [hB])
  have hend1 : d1.end_time = none := by rw [hd1]; exact hendd
  have hwork1 : d1.work_intervals = d.work_intervals ++ [⟨t, none⟩] := by
    rw [hd1]
  have hbreak1 : lastIsOpen d1.break_intervals = false := by
    rw [hd1]
    show lastIsOpen (closeLast d.break_intervals t) = false
    rw [lastIsOpen]
    rw [getLast?_closeLast t d.break_intervals i hlast]
    rfl
  have hst1 : d1.state = DayState.Working :=
    state_eq_working_parts hend1 hbreak1
  have hhe1 : d1.has_ended = false := by simp [Day.has_ended, hend1]
  have hendday := end_day_of_shape_working hend1 hwork1 hbreak1 (Nat.le_refl t)
  have hhe2 : Day.has_ended
      { d1 with work_intervals := d.work_intervals ++ [⟨t, some t⟩]
                end_time := some t } = true := rfl
  refine ⟨hend1, hst1, ?_⟩
  unfold resume
  rw [hok]
  simp only [hhe1, Bool.false_eq_true, if_false, hendday,
    summarise_time_of_ended hhe2]

/-- The full run of `summary` when `end_day_at` succeeds: the store is
returned untouched while the day is ended and the ledger accumulated in
memory only. -/
theorem summary_run_of_end_ok {now : Nat} {d d1 : Day} (s : CmdState)
    (h : d.end_day_at now = .ok d1) :
    summary now d s =
      some (s, d1, s.stored_config.update_minutes_behind d1.time_left_val) := by
  have he : d1.has_ended = true := by
    simp [Day.has_ended, end_day_ok_end_time h]
  unfold summary
  rw [h]
  simp only [summarise_time_of_ended he]

/-- The full run of `punch_out` when `end_day_at` succeeds: the ended day
and the accumulated ledger are both persisted. -/
theorem punch_out_run_of_end_ok {now : Nat} {d d1 : Day} (s : CmdState)
    (h : d.end_day_at now = .ok d1) :
    punch_out now d s =
      some (⟨some d1, s.stored_config.update_minutes_behind d1.time_left_val⟩, d1,
            s.stored_config.update_minutes_behind d1.time_left_val) := by
  have he : d1.has_ended = true := by
    simp [Day.has_ended, end_day_ok_end_time h]
  unfold punch_out update_time_behind
  rw [h]
  simp only [he, if_true, summarise_time_of_ended he]

/-!
## Preservation of the interval invariant
-/

/-- The invariant holds at construction. -/
theorem inv_new (t0 : Nat) (task : String) (target : Nat) :
    intervalsInv t0 (Day.new t0 task target) := by
  constructor
  · intro i hi j hj
    simp [Day.new] at hj
  · refine Or.inl ⟨t0, [], Nat.le_refl t0, rfl, rfl, closedUpto_nil t0,
      closedUpto_nil t0, ?_⟩
    simp [Day.new, totalSeconds, Interval.seconds]

/-- `start_break_at` preserves the invariant. -/
theorem inv_preserved_start_break {t0 t : Nat} {d d1 : Day}
    (hinv : intervalsInv t0 d) (h : d.start_break_at t = .ok d1) :
    intervalsInv t0 d1 := by
  obtain ⟨hno, hcase⟩ := hinv
  obtain ⟨hst, i, hlast, hle, hd1⟩ := start_break_ok_shape h
  rcases hcase with ⟨f, w, hft0, hend, hwork, hclw, hclb, hsum⟩ |
    ⟨f, b, hft0, hend, hbq, hclb, hclw, hsum⟩ | ⟨f, hft0, hfe, hclw, hclb, hsum⟩
  · -- Working shape: the transition goes through.
    have hi : i = ⟨f, none⟩ := by
      rw [hwork, getLast?_append_single] at hlast
      exact (Option.some.inj hlast).symm
    subst hi
    have hfle : f ≤ t := hle
    have hwork1 : d1.work_intervals = w ++ [⟨f, some t⟩] := by
      rw [hd1]
      show closeLast d.work_intervals t = _
      rw [hwork, closeLast_concat]
    have hbreak1 : d1.break_intervals = d.break_intervals ++ [⟨t, none⟩] := by
      rw [hd1]
    have hend1 : d1.end_time = none := by
      rw [hd1]
      exact hend
    constructor
    · intro ia hia jb hjb
      rw [hwork1] at hia
      rw [hbreak1] at hjb
      rcases List.mem_append.mp hia with hw1 | hw2
      · rcases List.mem_append.mp hjb with hb1 | hb2
        · exact hno ia (by rw [hwork]; exact List.mem_append_left _ hw1) jb hb1
        · rw [List.mem_singleton] at hb2
          subst hb2
          obtain ⟨e, he, _, hef⟩ := hclw ia hw1
          exact overlapsB_closed_open he (Nat.le_trans hef hfle)
      · rw [List.mem_singleton] at hw2
        subst hw2
        rcases List.mem_append.mp hjb with hb1 | hb2
        · obtain ⟨e, he, _, hef⟩ := hclb jb hb1
          exact overlapsB_right_ends_first rfl he hef
        · rw [List.mem_singleton] at hb2
          subst hb2
          exact overlapsB_closed_open rfl (Nat.le_refl t)
    · refine Or.inr (Or.inl ⟨t, d.break_intervals, Nat.le_trans hft0 hfle, hend1,
        hbreak1, closedUpto_mono hclb hfle, ?_, ?_⟩)
      · rw [hwork1]
        exact closedUpto_append_closed hclw hfle hfle
      · rw [hwork1, hbreak1, totalSeconds_append, totalSeconds_append]
        rw [hwork, totalSeconds_append] at hsum
        have e1 : totalSeconds [(⟨f, some t⟩ : Interval)] = t - f :=
          totalSeconds_single _
        have e2 : totalSeconds [(⟨t, none⟩ : Interval)] = 0 :=
          totalSeconds_single _
        have e3 : totalSeconds [(⟨f, none⟩ : Interval)] = 0 :=
          totalSeconds_single _
        omega
  · -- OnBreak shape contradicts `state = Working`.
    have hob : d.state = DayState.OnBreak :=
      state_eq_onbreak_parts hend (by rw [hbq, lastIsOpen_append_single]; rfl)
    rw [hst] at hob
    exact DayState.noConfusion hob
  · -- Ended shape contradicts `state = Working`.
    have hed : d.state = DayState.Ended := by
      simp [Day.state, Day.has_ended, hfe]
    rw [hst] at hed
    exact DayState.noConfusion hed

/-- `end_current_block_at` preserves the invariant. -/
theorem inv_preserved_end_block {t0 t : Nat} {d d1 : Day}
    (hinv : intervalsInv t0 d) (h : d.end_current_block_at t = .ok d1) :
    intervalsInv t0 d1 := by
  obtain ⟨hno, hcase⟩ := hinv
  obtain ⟨hst, i, hlast, hle, hd1⟩ := end_block_ok_shape h
  rcases hcase with ⟨f, w, hft0, hend, hwork, hclw, hclb, hsum⟩ |
    ⟨f, b, hft0, hend, hbq, hclb, hclw, hsum⟩ | ⟨f, hft0, hfe, hclw, hclb, hsum⟩
  · -- Working shape contradicts `state = OnBreak`.
    have hwk : d.state = DayState.Working :=
      state_eq_working_parts hend (lastIsOpen_eq_false_of_closedUpto hclb)
    rw [hst] at hwk
    exact DayState.noConfusion hwk
  · -- OnBreak shape: the transition goes through.
    have hi : i = ⟨f, none⟩ := by
      rw [hbq, getLast?_append_single] at hlast
      exact (Option.some.inj hlast).symm
    subst hi
    have hfle : f ≤ t := hle
    have hbreak1 : d1.break_intervals = b ++ [⟨f, some t⟩] := by
      rw [hd1]
      show closeLast d.break_intervals t = _
      rw [hbq, closeLast_concat]
    have hwork1 : d1.work_intervals = d.work_intervals ++ [⟨t, none⟩] := by
      rw [hd1]
    have hend1 : d1.end_time = none := by
      rw [hd1]
      exact hend
    constructor
    · intro ia hia jb hjb
      rw [hwork1] at hia
      rw [hbreak1] at hjb
      rcases List.mem_append.mp hia with hw1 | hw2
      · rcases List.mem_append.mp hjb with hb1 | hb2
        · exact hno ia hw1 jb (by rw [hbq]; exact List.mem_append_left _ hb1)
        · rw [List.mem_singleton] at hb2
          subst hb2
          obtain ⟨e, he, _, hef⟩ := hclw ia hw1
          exact overlapsB_left_ends_first he rfl hef
      · rw [List.mem_singleton] at hw2
        subst hw2
        rcases List.mem_append.mp hjb with hb1 | hb2
        · obtain ⟨e, he, _, hef⟩ := hclb jb hb1
          exact overlapsB_open_closed he (Nat.le_trans hef hfle)
        · rw [List.mem_singleton] at hb2
          subst hb2
          exact overlapsB_open_closed rfl (Nat.le_refl t)
    · refine Or.inl ⟨t, d.work_intervals, Nat.le_trans hft0 hfle, hend1,
        hwork1, closedUpto_mono hclw hfle, ?_, ?_⟩
      · rw [hbreak1]
        exact closedUpto_append_closed hclb hfle hfle
      · rw [hwork1, hbreak1, totalSeconds_append, totalSeconds_append]
        rw [hbq, totalSeconds_append] at hsum
        have e1 : totalSeconds [(⟨f, some t⟩ : Interval)] = t - f :=
          totalSeconds_single _
        have e2 : totalSeconds [(⟨t, none⟩ : Interval)] = 0 :=
          totalSeconds_single _
        have e3 : totalSeconds [(⟨f, none⟩ : Interval)] = 0 :=
          totalSeconds_single _
        omega
  · -- Ended shape contradicts `state = OnBreak`.
    have hed : d.state = DayState.Ended := by
      simp [Day.state, Day.has_ended, hfe]
    rw [hst] at hed
    exact DayState.noConfusion hed

/-- `end_day_at` preserves the invariant. -/
theorem inv_preserved_end_day {t0 t : Nat} {d d1 : Day}
    (hinv : intervalsInv t0 d) (h : d.end_day_at t = .ok d1) :
    intervalsInv t0 d1 := by
  obtain ⟨hno, hcase⟩ := hinv
  rcases hcase with ⟨f, w, hft0, hend, hwork, hclw, hclb, hsum⟩ |
    ⟨f, b, hft0, hend, hbq, hclb, hclw, hsum⟩ | ⟨f, hft0, hfe, hclw, hclb, hsum⟩
  · -- Working: the open work interval is closed at `t`.
    rcases end_day_ok_shape h with ⟨hst, hcases⟩ | ⟨hst, _⟩
    · rcases hcases with ⟨hnone, _⟩ | ⟨i, hlast, hle, hd1⟩
      · rw [hwork, getLast?_append_single] at hnone
        exact Option.noConfusion hnone
      · have hi : i = ⟨f, none⟩ := by
          rw [hwork, getLast?_append_single] at hlast
          exact (Option.some.inj hlast).symm
        subst hi
        have hfle : f ≤ t := hle
        have hwork1 : d1.work_intervals = w ++ [⟨f, some t⟩] := by
          rw [hd1]
          show closeLast d.work_intervals t = _
          rw [hwork, closeLast_concat]
        have hbreak1 : d1.break_intervals = d.break_intervals := by
          rw [hd1]
        have hend1 : d1.end_time = some t := by
          rw [hd1]
        constructor
        · intro ia hia jb hjb
          rw [hwork1] at hia
          rw [hbreak1] at hjb
          rcases List.mem_append.mp hia with hw1 | hw2
          · exact hno ia (by rw [hwork]; exact List.mem_append_left _ hw1) jb hjb
          · rw [List.mem_singleton] at hw2
            subst hw2
            obtain ⟨e, he, _, hef⟩ := hclb jb hjb
            exact overlapsB_right_ends_first rfl he hef
        · refine Or.inr (Or.inr ⟨t, Nat.le_trans hft0 hfle, hend1, ?_, ?_, ?_⟩)
          · rw [hwork1]
            exact closedUpto_append_closed hclw hfle hfle
          · rw [hbreak1]
            exact closedUpto_mono hclb hfle
          · rw [hwork1, hbreak1, totalSeconds_append]
            rw [hwork, totalSeconds_append] at hsum
            have e1 : totalSeconds [(⟨f, some t⟩ : Interval)] = t - f :=
              totalSeconds_single _
            have e3 : totalSeconds [(⟨f, none⟩ : Interval)] = 0 :=
              totalSeconds_single _
            omega
    · -- the day cannot be `OnBreak` in the `Working` shape
      have hwk : d.state = DayState.Working :=
        state_eq_working_parts hend (lastIsOpen_eq_false_of_closedUpto hclb)
      rw [hwk] at hst
      exact DayState.noConfusion hst
  · -- OnBreak: the open break interval is closed at `t`.
    rcases end_day_ok_shape h with ⟨hst, _⟩ | ⟨hst, hcases⟩
    · have hob : d.state = DayState.OnBreak :=
        state_eq_onbreak_parts hend (by rw [hbq, lastIsOpen_append_single]; rfl)
      rw [hob] at hst
      exact DayState.noConfusion hst
    · rcases hcases with ⟨hnone, _⟩ | ⟨i, hlast, hle, hd1⟩
      · rw [hbq, getLast?_append_single] at hnone
        exact Option.noConfusion hnone
      · have hi : i = ⟨f, none⟩ := by
          rw [hbq, getLast?_append_single] at hlast
          exact (Option.some.inj hlast).symm
        subst hi
        have hfle : f ≤ t := hle
        have hbreak1 : d1.break_intervals = b ++ [⟨f, some t⟩] := by
          rw [hd1]
          show closeLast d.break_intervals t = _
          rw [hbq, closeLast_concat]
        have hwork1 : d1.work_intervals = d.work_intervals := by
          rw [hd1]
        have hend1 : d1.end_time = some t := by
          rw [hd1]
        constructor
        · intro ia hia jb hjb
          rw [hwork1] at hia
          rw [hbreak1] at hjb
          rcases List.mem_append.mp hjb with hb1 | hb2
          · exact hno ia hia jb (by rw [hbq]; exact List.mem_append_left _ hb1)
          · rw [List.mem_singleton] at hb2
            subst hb2
            obtain ⟨e, he, _, hef⟩ := hclw ia hia
            exact overlapsB_left_ends_first he rfl hef
        · refine Or.inr (Or.inr ⟨t, Nat.le_trans hft0 hfle, hend1, ?_, ?_, ?_⟩)
          · rw [hwork1]
            exact closedUpto_mono hclw hfle
          · rw [hbreak1]
            exact closedUpto_append_closed hclb hfle hfle
          · rw [hwork1, hbreak1, totalSeconds_append]
            rw [hbq, totalSeconds_append] at hsum
            have e1 : totalSeconds [(⟨f, some t⟩ : Interval)] = t - f :=
              totalSeconds_single _
            have e3 : totalSeconds [(⟨f, none⟩ : Interval)] = 0 :=
              totalSeconds_single _
            omega
  · -- Ended: `end_day_at` cannot succeed.
    have hed : d.state = DayState.Ended := by
      simp [Day.state, Day.has_ended, hfe]
    rcases end_day_ok_shape h with ⟨hst, _⟩ | ⟨hst, _⟩
    · rw [hed] at hst
      exact DayState.noConfusion hst
    · rw [hed] at hst
      exact DayState.noConfusion hst

/-- The invariant only depends on the interval lists and the end time. -/
theorem intervalsInv_congr {t0 : Nat} {d d1 : Day}
    (hw : d1.work_intervals = d.work_intervals)
    (hb : d1.break_intervals = d.break_intervals)
    (he : d1.end_time = d.end_time)
    (h : intervalsInv t0 d) : intervalsInv t0 d1 := by
  unfold intervalsInv NoOverlap at h ⊢
  rw [hw, hb, he]
  exact h

/-- Every successful operation preserves the invariant. -/
theorem inv_preserved_op {t0 : Nat} {d d1 : Day} {op : DayOp}
    (hinv : intervalsInv t0 d) (h : d.applyOp op = .ok d1) :
    intervalsInv t0 d1 := by
  cases op with
  | startBreak t => exact inv_preserved_start_break hinv h
  | endBlock t => exact inv_preserved_end_block hinv h
  | endDay t => exact inv_preserved_end_day hinv h
  | addNote t msg =>
    have hd1 := Except.ok.inj h
    subst hd1
    exact intervalsInv_congr rfl rfl rfl hinv
  | addSummary a b c e =>
    have hd1 := Except.ok.inj h
    subst hd1
    exact intervalsInv_congr rfl rfl rfl hinv

/-- Every successful run of a sequence of operations preserves the
invariant. -/
theorem inv_runOps {t0 : Nat} : ∀ (ops : List DayOp) (d d' : Day),
    intervalsInv t0 d → d.runOps ops = .ok d' → intervalsInv t0 d'
  | [], d, d', hinv, h => by
    have hd := Except.ok.inj h
    subst hd
    exact hinv
  | op :: rest, d, d', hinv, h => by
    unfold Day.runOps at h
    split at h
    · next d1 hap =>
      exact inv_runOps rest d1 d' (inv_preserved_op hinv hap) h
    · exact Except.noConfusion h

/-!
## C4 — ledger accumulation is additive
-/

/-- Claim C4: `updateMinutesBehind(timeLeftMinutes)` adds `timeLeftMinutes`
to the running signed `minutes_behind` counter; and for two consecutive
closed days each ending with `timeLeftMinutes = -20`, accumulated through
`summarise_time` starting from a ledger at `0`, the resulting
`minutes_behind` is `-40`. -/
theorem c4_update_minutes_behind_adds :
    (∀ (c : Config) (t : Int),
      (c.update_minutes_behind t).minutes_behind = c.minutes_behind + t) ∧
    (∀ (d1 d2 : Day) (c c1 c2 : Config), c.minutes_behind = 0 →
      d1.get_time_left = .ok (-20) → d2.get_time_left = .ok (-20) →
      summarise_time d1 c = some c1 → summarise_time d2 c1 = some c2 →
      c2.minutes_behind = -40) := by
  constructor
  · intro c t
    rfl
  · intro d1 d2 c c1 c2 hc h1 h2 hs1 hs2
    obtain ⟨tl1, htl1, hc1⟩ := summarise_time_eq_some hs1
    obtain ⟨tl2, htl2, hc2⟩ := summarise_time_eq_some hs2
    rw [h1] at htl1
    rw [h2] at htl2
    have e1 : tl1 = -20 := (Except.ok.inj htl1).symm
    have e2 : tl2 = -20 := (Except.ok.inj htl2).symm
    subst e1 e2 hc1 hc2
    simp [Config.update_minutes_behind, hc]

/-- A concrete ended day that overshot its 480-minute target by 20 minutes:
one work interval of 30000 seconds (500 minutes). -/
def day_over_target : Day :=
  ⟨0, "", [⟨0, some 30000⟩], [], some 30000, 480, [], []⟩

/-- Witness for C4 at the concrete day `day_over_target` and a fresh
ledger. -/
theorem c4_witness :
    (⟨480, "", 0⟩ : Config).minutes_behind = 0 ∧
    day_over_target.get_time_left = .ok (-20) ∧
    summarise_time day_over_target ⟨480, "", 0⟩ = some ⟨480, "", -20⟩ ∧
    summarise_time day_over_target ⟨480, "", -20⟩ = some ⟨480, "", -40⟩ ∧
    (⟨480, "", -40⟩ : Config).minutes_behind = -40 :=
  ⟨by decide, by decide, by decide, by decide,
    c4_update_minutes_behind_adds.2 day_over_target day_over_target
      ⟨480, "", 0⟩ ⟨480, "", -20⟩ ⟨480, "", -40⟩
      (by decide) (by decide) (by decide) (by decide) (by decide)⟩

/-!
## C5 — the non-negative ledger view
-/

/-- Claim C5: for every Ledger state reachable by any sequence of
accumulations (including negative inputs), `minutes_behind_non_neg()`
equals `max(0, minutes_behind)`. -/
theorem c5_non_neg_view_eq_max :
    ∀ (c : Config) (ts : List Int),
      (c.apply_updates ts).minutes_behind_non_neg =
        max 0 (c.apply_updates ts).minutes_behind := by
  intro c ts
  rfl

/-!
## C6 — derivations are defined only on ended days
-/

/-- Claim C6: for every Day Record whose state is not `Ended`, each of
`totalWorkMinutes` (`get_time_done`), `totalBreakMinutes`
(`get_total_break_time`) and `timeLeftMinutes` (`get_time_left`) fails with
`DayNotEnded`; each returns a value only when `end_time` is set. -/
theorem c6_derivations_need_ended_day :
    ∀ d : Day,
      (d.state ≠ DayState.Ended →
        d.get_time_done = .error .dayNotEnded ∧
        d.get_total_break_time = .error .dayNotEnded ∧
        d.get_time_left = .error .dayNotEnded) ∧
      (∀ v, d.get_time_done = .ok v → d.end_time.isSome = true) ∧
      (∀ v, d.get_total_break_time = .ok v → d.end_time.isSome = true) ∧
      (∀ v, d.get_time_left = .ok v → d.end_time.isSome = true) := by
  intro d
  have hstate : d.has_ended = true → d.state = DayState.Ended := by
    intro h
    simp [Day.state, h]
  refine ⟨?_, ?_, ?_, ?_⟩
  · intro hne
    have hf : d.has_ended = false := by
      cases h : d.has_ended
      · rfl
      · exact absurd (hstate h) hne
    simp [Day.get_time_done, Day.get_total_break_time, Day.get_time_left, hf]
  all_goals
    intro v hv
    cases h : d.has_ended
    · simp [Day.get_time_done, Day.get_total_break_time, Day.get_time_left, h] at hv
    · exact h

/-- Witness for C6: a freshly punched-in day is not `Ended` and all three
derivations fail; an ended literal day makes `get_time_done` return a
value, forcing `end_time` to be set. -/
theorem c6_witness :
    ((Day.new 0 "" 480).state ≠ DayState.Ended ∧
      (Day.new 0 "" 480).get_time_done = .error .dayNotEnded ∧
      (Day.new 0 "" 480).get_total_break_time = .error .dayNotEnded ∧
      (Day.new 0 "" 480).get_time_left = .error .dayNotEnded) ∧
    (⟨0, "", [⟨0, some 60⟩], [], some 60, 480, [], []⟩ : Day).end_time.isSome = true :=
  ⟨⟨by decide, (c6_derivations_need_ended_day (Day.new 0 "" 480)).1 (by decide)⟩,
    (c6_derivations_need_ended_day ⟨0, "", [⟨0, some 60⟩], [], some 60, 480, [], []⟩).2.1
      1 (by decide)⟩

/-!
## C7 — duplicate punch-in is rejected
-/

/-- Claim C7: for every date that already has a Day Record in the store,
`punch_in` is rejected before construction: no new Day Record is
constructed or written (the second component is `none`, the rejection
branch that prints the "already clocked in" message) and the store —
including the existing record — is returned unchanged. -/
theorem c7_duplicate_punch_in_rejected :
    ∀ (now : Nat) (other_args : List String) (s : CmdState) (d : Day),
      s.stored_day = some d → punch_in now other_args s = (s, none) := by
  intro now other_args s d h
  simp [punch_in, h]

/-- Witness for C7: punching in again on a store that already holds a day
for the date leaves the store untouched and constructs nothing. -/
theorem c7_witness :
    (⟨some (Day.new 0 "" 480), ⟨480, "", 0⟩⟩ : CmdState).stored_day
        = some (Day.new 0 "" 480) ∧
    punch_in 5 [] ⟨some (Day.new 0 "" 480), ⟨480, "", 0⟩⟩
        = (⟨some (Day.new 0 "" 480), ⟨480, "", 0⟩⟩, none) :=
  ⟨rfl, c7_duplicate_punch_in_rejected 5 [] _ (Day.new 0 "" 480) rfl⟩

/-!
## C10 — `main` is partial on short argument lists
-/

/-- Claim C10: the argument-parsing entry point of `main` indexes
`env_args[1]` unconditionally, so on any argument list of length less
than 2 (in particular an invocation with no subcommand) it goes out of
bounds and panics (`none`) instead of producing a subcommand. -/
theorem c10_main_short_args_panic :
    ∀ env_args : List String, env_args.length < 2 →
      main_parse_args env_args = none := by
  intro l h
  cases l with
  | nil => rfl
  | cons a t =>
    cases t with
    | nil => rfl
    | cons b r => simp [List.length_cons] at h; omega

/-- Witness for C10: an invocation carrying only the program name. -/
theorem c10_witness :
    (["punch"] : List String).length < 2 ∧ main_parse_args ["punch"] = none :=
  ⟨by decide, c10_main_short_args_panic ["punch"] (by decide)⟩

/-!
## C1 — the break/resume handlers close the still-open day

The claim fails on the code: `take_break` (main.rs:171) and `resume`
(main.rs:186) run `end_day_at` under the guard `!day.has_ended()`, i.e.
exactly when the day has NOT ended — never because it "has independently
ended".  After a successful `start_break_at` the day is never ended, so the
handler force-closes the still-open day (in memory) and runs the ledger
accumulation unconditionally.
-/

/-- Counterexample to claim C1: on a freshly punched-in `Working` day
(`end_time = None`), `take_break` at `t = 60` performs day-closing — the
final in-memory day has `end_time = some 60` and the ledger accumulation
ran (`minutes_behind` became 479) — even though the day was still open,
contradicting "never on a day that is still open". -/
theorem c1_counterexample :
    (Day.new 0 "w" 480).has_ended = false ∧
    take_break 60 (Day.new 0 "w" 480) ⟨some (Day.new 0 "w" 480), ⟨480, "t", 0⟩⟩ =
      some (⟨some ⟨0, "w", [⟨0, some 60⟩], [⟨60, none⟩], none, 480, [], []⟩, ⟨480, "t", 0⟩⟩,
            ⟨0, "w", [⟨0, some 60⟩], [⟨60, some 60⟩], some 60, 480, [], []⟩,
            ⟨480, "t", 479⟩) ∧
    (⟨0, "w", [⟨0, some 60⟩], [⟨60, some 60⟩], some 60, 480, [], []⟩ : Day).has_ended
        = true ∧
    (479 : Int) ≠ 0 := by
  refine ⟨by decide, by decide, by decide, by decide⟩

/-- Claim C1 (amended): for every day in state `Working`, a successful
`startBreak` leaves the PERSISTED Day Record in state `OnBreak` with
`end_time` still `None`; but the break handler then performs day-closing
(`endDay` plus the ledger accumulation) on its in-memory copies precisely
when the day has NOT yet ended — that is always, on the still-open day —
and persists neither the ended day nor the accumulated ledger; the resume
handler behaves the same way. -/
theorem c1_amended :
    (∀ (d d1 : Day) (t : Nat) (s : CmdState),
      d.state = DayState.Working → d.start_break_at t = .ok d1 →
      d1.state = DayState.OnBreak ∧ d1.end_time = none ∧
      ∃ d2, d2.end_time = some t ∧
        take_break t d s =
          some ({ s with stored_day := some d1 }, d2,
                s.stored_config.update_minutes_behind d2.time_left_val)) ∧
    (∀ (d d1 : Day) (t : Nat) (s : CmdState),
      d.state = DayState.OnBreak → d.end_current_block_at t = .ok d1 →
      d1.state = DayState.Working ∧ d1.end_time = none ∧
      ∃ d2, d2.end_time = some t ∧
        resume t d s =
          some ({ s with stored_day := some d1 }, d2,
                s.stored_config.update_minutes_behind d2.time_left_val)) := by
  constructor
  · intro d d1 t s _ hok
    obtain ⟨hend1, hst1, hrun⟩ := take_break_ok_run s hok
    exact ⟨hst1, hend1, _, rfl, hrun⟩
  · intro d d1 t s _ hok
    obtain ⟨hend1, hst1, hrun⟩ := resume_ok_run s hok
    exact ⟨hst1, hend1, _, rfl, hrun⟩

/-- Witness for C1 (amended), pause half, at a concrete fresh day. -/
theorem c1_witness :
    (Day.new 0 "w" 480).state = DayState.Working ∧
    (Day.new 0 "w" 480).start_break_at 60 =
      .ok ⟨0, "w", [⟨0, some 60⟩], [⟨60, none⟩], none, 480, [], []⟩ ∧
    ((⟨0, "w", [⟨0, some 60⟩], [⟨60, none⟩], none, 480, [], []⟩ : Day).state
        = DayState.OnBreak ∧
      (⟨0, "w", [⟨0, some 60⟩], [⟨60, none⟩], none, 480, [], []⟩ : Day).end_time
        = none ∧
      ∃ d2, d2.end_time = some 60 ∧
        take_break 60 (Day.new 0 "w" 480)
            ⟨some (Day.new 0 "w" 480), ⟨480, "t", 0⟩⟩ =
          some ({ (⟨some (Day.new 0 "w" 480), ⟨480, "t", 0⟩⟩ : CmdState) with
                    stored_day :=
                      some ⟨0, "w", [⟨0, some 60⟩], [⟨60, none⟩], none, 480, [], []⟩ },
                d2,
                (⟨480, "t", 0⟩ : Config).update_minutes_behind d2.time_left_val)) :=
  ⟨by decide, by decide,
    c1_amended.1 (Day.new 0 "w" 480)
      ⟨0, "w", [⟨0, some 60⟩], [⟨60, none⟩], none, 480, [], []⟩ 60
      ⟨some (Day.new 0 "w" 480), ⟨480, "t", 0⟩⟩ (by decide) (by decide)⟩

/-!
## C2 — accumulation and persistence on `out` and `summary`

The claim holds for `punch_out` but fails for `summary`: `summary`
(main.rs:217-225) runs `summarise_time` (which applies
`update_minutes_behind` exactly once) on the loaded config, but never calls
`update_config`, so the updated Ledger is NOT persisted.
-/

/-- Counterexample to claim C2: a day-closing `summary` at `t = 60` applies
the accumulation in memory (`minutes_behind` becomes 479) but returns the
store unchanged with `minutes_behind = 0` — the updated Ledger is not
persisted. -/
theorem c2_counterexample :
    summary 60 (Day.new 0 "w" 480) ⟨some (Day.new 0 "w" 480), ⟨480, "t", 0⟩⟩ =
      some (⟨some (Day.new 0 "w" 480), ⟨480, "t", 0⟩⟩,
            ⟨0, "w", [⟨0, some 60⟩], [], some 60, 480, [], []⟩,
            ⟨480, "t", 479⟩) ∧
    (⟨480, "t", 0⟩ : Config).minutes_behind ≠
      (⟨480, "t", 479⟩ : Config).minutes_behind := by
  refine ⟨by decide, by decide⟩

/-- Claim C2 (amended): for a day-closing `out` command the accumulation is
applied exactly once and the updated Ledger is persisted; for a day-closing
`summary` command the accumulation is applied exactly once to the in-memory
Ledger, but the store — including the Ledger — is returned unchanged. -/
theorem c2_amended :
    (∀ (now : Nat) (d d1 : Day) (s : CmdState),
      d.end_day_at now = .ok d1 →
      punch_out now d s =
        some (⟨some d1, s.stored_config.update_minutes_behind d1.time_left_val⟩,
              d1, s.stored_config.update_minutes_behind d1.time_left_val)) ∧
    (∀ (now : Nat) (d : Day) (s : CmdState) (r : CmdState × Day × Config),
      summary now d s = some r →
      r.1 = s ∧ ∃ tl, r.2.1.get_time_left = .ok tl ∧
        r.2.2 = s.stored_config.update_minutes_behind tl) := by
  constructor
  · intro now d d1 s h
    exact punch_out_run_of_end_ok s h
  · intro now d s r h
    simp only [summary] at h
    split at h
    · next config1 heq =>
      obtain ⟨tl, htl, hc⟩ := summarise_time_eq_some heq
      have hr := Option.some.inj h
      subst hr
      exact ⟨rfl, tl, htl, hc⟩
    · exact absurd h (by simp)

/-- Witness for C2 (amended) at a concrete fresh day: `out` persists the
accumulated ledger, `summary` does not. -/
theorem c2_witness :
    ((Day.new 0 "w" 480).end_day_at 60 =
        .ok ⟨0, "w", [⟨0, some 60⟩], [], some 60, 480, [], []⟩ ∧
      punch_out 60 (Day.new 0 "w" 480) ⟨some (Day.new 0 "w" 480), ⟨480, "t", 0⟩⟩ =
        some (⟨some ⟨0, "w", [⟨0, some 60⟩], [], some 60, 480, [], []⟩,
                (⟨480, "t", 0⟩ : Config).update_minutes_behind
                  (Day.time_left_val ⟨0, "w", [⟨0, some 60⟩], [], some 60, 480, [], []⟩)⟩,
              ⟨0, "w", [⟨0, some 60⟩], [], some 60, 480, [], []⟩,
              (⟨480, "t", 0⟩ : Config).update_minutes_behind
                (Day.time_left_val ⟨0, "w", [⟨0, some 60⟩], [], some 60, 480, [], []⟩))) ∧
    (summary 60 (Day.new 0 "w" 480) ⟨some (Day.new 0 "w" 480), ⟨480, "t", 0⟩⟩ =
        some (⟨some (Day.new 0 "w" 480), ⟨480, "t", 0⟩⟩,
              ⟨0, "w", [⟨0, some 60⟩], [], some 60, 480, [], []⟩, ⟨480, "t", 479⟩) ∧
      ((⟨some (Day.new 0 "w" 480), ⟨480, "t", 0⟩⟩,
          (⟨0, "w", [⟨0, some 60⟩], [], some 60, 480, [], []⟩ : Day),
          (⟨480, "t", 479⟩ : Config)) : CmdState × Day × Config).1 =
        ⟨some (Day.new 0 "w" 480), ⟨480, "t", 0⟩⟩ ∧
      ∃ tl,
        ((⟨some (Day.new 0 "w" 480), ⟨480, "t", 0⟩⟩,
            (⟨0, "w", [⟨0, some 60⟩], [], some 60, 480, [], []⟩ : Day),
            (⟨480, "t", 479⟩ : Config)) : CmdState × Day × Config).2.1.get_time_left =
          .ok tl ∧
        ((⟨some (Day.new 0 "w" 480), ⟨480, "t", 0⟩⟩,
            (⟨0, "w", [⟨0, some 60⟩], [], some 60, 480, [], []⟩ : Day),
            (⟨480, "t", 479⟩ : Config)) : CmdState × Day × Config).2.2 =
          (⟨480, "t", 0⟩ : Config).update_minutes_behind tl) :=
  ⟨⟨by decide,
      c2_amended.1 60 (Day.new 0 "w" 480)
        ⟨0, "w", [⟨0, some 60⟩], [], some 60, 480, [], []⟩
        ⟨some (Day.new 0 "w" 480), ⟨480, "t", 0⟩⟩ (by decide)⟩,
    ⟨by decide,
      c2_amended.2 60 (Day.new 0 "w" 480)
        ⟨some (Day.new 0 "w" 480), ⟨480, "t", 0⟩⟩
        (⟨some (Day.new 0 "w" 480), ⟨480, "t", 0⟩⟩,
          ⟨0, "w", [⟨0, some 60⟩], [], some 60, 480, [], []⟩, ⟨480, "t", 479⟩)
        (by decide)⟩⟩

/-!
## C3 — mutations are not always followed by a persistence step

The claim fails: `summary` mutates the in-memory day via `end_day_at` and
writes nothing, and `take_break`/`resume` write the record BEFORE the
`end_day_at` they subsequently perform, so the force-ended copy is never
persisted and the on-disk record is left inconsistent with the in-memory
state.
-/

/-- Counterexample to claim C3: after `summary` on an open day at
`t = 120`, the in-memory day has `end_time = some 120` while the store
still holds the original open record (`end_time = none`) — the `endDay`
mutation inside `summary` was not followed by any persistence step. -/
theorem c3_counterexample :
    summary 120 (Day.new 0 "x" 480) ⟨some (Day.new 0 "x" 480), ⟨480, "x", 0⟩⟩ =
      some (⟨some (Day.new 0 "x" 480), ⟨480, "x", 0⟩⟩,
            ⟨0, "x", [⟨0, some 120⟩], [], some 120, 480, [], []⟩,
            ⟨480, "x", 478⟩) ∧
    (Day.new 0 "x" 480).end_time = none ∧
    (⟨0, "x", [⟨0, some 120⟩], [], some 120, 480, [], []⟩ : Day).end_time
        = some 120 ∧
    Day.new 0 "x" 480 ≠ ⟨0, "x", [⟨0, some 120⟩], [], some 120, 480, [], []⟩ := by
  refine ⟨by decide, by decide, by decide, by decide⟩

/-- Claim C3 (amended): the `endDay` transitions performed inside `summary`
and inside the pause handler are NOT followed by a persistence step —
`summary` returns the store completely untouched while its in-memory day
was ended, and `take_break` persists only the pre-`endDay` record, so the
final in-memory day (ended) differs from the stored one (still open). -/
theorem c3_amended :
    (∀ (now : Nat) (d d1 : Day) (s : CmdState),
      d.end_day_at now = .ok d1 →
      d1.end_time = some now ∧
      ∃ c1, summary now d s = some (s, d1, c1)) ∧
    (∀ (t : Nat) (d d1 : Day) (s : CmdState),
      d.start_break_at t = .ok d1 →
      d1.end_time = none ∧
      ∃ d2 c1,
        take_break t d s = some ({ s with stored_day := some d1 }, d2, c1) ∧
        d2.end_time = some t ∧ d2 ≠ d1) := by
  constructor
  · intro now d d1 s h
    exact ⟨end_day_ok_end_time h, _, summary_run_of_end_ok s h⟩
  · intro t d d1 s hok
    obtain ⟨hend1, _, hrun⟩ := take_break_ok_run s hok
    refine ⟨hend1, _, _, hrun, rfl, ?_⟩
    intro hcontra
    have : (some t : Option Nat) = none := by
      rw [← hend1, ← hcontra]
    exact Option.noConfusion this

/-- Witness for C3 (amended) at a concrete fresh day. -/
theorem c3_witness :
    ((Day.new 0 "x" 480).end_day_at 120 =
        .ok ⟨0, "x", [⟨0, some 120⟩], [], some 120, 480, [], []⟩ ∧
      ((⟨0, "x", [⟨0, some 120⟩], [], some 120, 480, [], []⟩ : Day).end_time
          = some 120 ∧
        ∃ c1, summary 120 (Day.new 0 "x" 480)
            ⟨some (Day.new 0 "x" 480), ⟨480, "x", 0⟩⟩ =
          some (⟨some (Day.new 0 "x" 480), ⟨480, "x", 0⟩⟩,
                ⟨0, "x", [⟨0, some 120⟩], [], some 120, 480, [], []⟩, c1))) ∧
    ((Day.new 0 "x" 480).start_break_at 120 =
        .ok ⟨0, "x", [⟨0, some 120⟩], [⟨120, none⟩], none, 480, [], []⟩ ∧
      ((⟨0, "x", [⟨0, some 120⟩], [⟨120, none⟩], none, 480, [], []⟩ : Day).end_time
          = none ∧
        ∃ d2 c1,
          take_break 120 (Day.new 0 "x" 480)
              ⟨some (Day.new 0 "x" 480), ⟨480, "x", 0⟩⟩ =
            some ({ (⟨some (Day.new 0 "x" 480), ⟨480, "x", 0⟩⟩ : CmdState) with
                      stored_day :=
                        some ⟨0, "x", [⟨0, some 120⟩], [⟨120, none⟩], none, 480, [], []⟩ },
                  d2, c1) ∧
          d2.end_time = some 120 ∧
          d2 ≠ ⟨0, "x", [⟨0, some 120⟩], [⟨120, none⟩], none, 480, [], []⟩)) :=
  ⟨⟨by decide,
      c3_amended.1 120 (Day.new 0 "x" 480)
        ⟨0, "x", [⟨0, some 120⟩], [], some 120, 480, [], []⟩
        ⟨some (Day.new 0 "x" 480), ⟨480, "x", 0⟩⟩ (by decide)⟩,
    ⟨by decide,
      c3_amended.2 120 (Day.new 0 "x" 480)
        ⟨0, "x", [⟨0, some 120⟩], [⟨120, none⟩], none, 480, [], []⟩
        ⟨some (Day.new 0 "x" 480), ⟨480, "x", 0⟩⟩ (by decide)⟩⟩

/-!
## C8 — work and break intervals never overlap
-/

/-- Claim C8: for all valid transition sequences starting from punch-in,
the `work_intervals` and `break_intervals` of the resulting Day Record
never overlap in time. -/
theorem c8_intervals_never_overlap :
    ∀ (t0 : Nat) (task : String) (target : Nat) (ops : List DayOp) (d : Day),
      (Day.new t0 task target).runOps ops = .ok d →
      ∀ i ∈ d.work_intervals, ∀ j ∈ d.break_intervals,
        i.overlapsB j = false := by
  intro t0 task target ops d h
  exact (inv_runOps ops _ d (inv_new t0 task target) h).1

/-- Witness for C8: a concrete day with one break round trip. -/
theorem c8_witness :
    (Day.new 0 "w" 480).runOps
        [DayOp.startBreak 60, DayOp.endBlock 120, DayOp.endDay 300] =
      .ok ⟨0, "w", [⟨0, some 60⟩, ⟨120, some 300⟩], [⟨60, some 120⟩],
            some 300, 480, [], []⟩ ∧
    ∀ i ∈ (⟨0, "w", [⟨0, some 60⟩, ⟨120, some 300⟩], [⟨60, some 120⟩],
            some 300, 480, [], []⟩ : Day).work_intervals,
      ∀ j ∈ (⟨0, "w", [⟨0, some 60⟩, ⟨120, some 300⟩], [⟨60, some 120⟩],
              some 300, 480, [], []⟩ : Day).break_intervals,
        i.overlapsB j = false :=
  ⟨by decide,
    c8_intervals_never_overlap 0 "w" 480
      [DayOp.startBreak 60, DayOp.endBlock 120, DayOp.endDay 300]
      ⟨0, "w", [⟨0, some 60⟩, ⟨120, some 300⟩], [⟨60, some 120⟩],
        some 300, 480, [], []⟩ (by decide)⟩

/-!
## C9 — work plus break equals elapsed time

At the level of seconds the identity is exact; in minutes it can fail by
one because `totalWorkMinutes` and `totalBreakMinutes` each truncate at
their own point of summation (spec §4.2) while the elapsed wall-clock time
truncates once.
-/

/-- Counterexample to claim C9: punch in at 0, break from 30 to 120, punch
out at 180 (a full `startBreak`/`endCurrentBlock` round trip, then
`endDay`): `totalWorkMinutes = 1` (90 s of work) and
`totalBreakMinutes = 1` (90 s of break), but the elapsed wall-clock time
from punch-in to punch-out is `180 s = 3` whole minutes, and `1 + 1 ≠ 3`. -/
theorem c9_counterexample :
    (Day.new 0 "w" 480).runOps
        [DayOp.startBreak 30, DayOp.endBlock 120, DayOp.endDay 180] =
      .ok ⟨0, "w", [⟨0, some 30⟩, ⟨120, some 180⟩], [⟨30, some 120⟩],
            some 180, 480, [], []⟩ ∧
    (⟨0, "w", [⟨0, some 30⟩, ⟨120, some 180⟩], [⟨30, some 120⟩],
        some 180, 480, [], []⟩ : Day).get_time_done = .ok 1 ∧
    (⟨0, "w", [⟨0, some 30⟩, ⟨120, some 180⟩], [⟨30, some 120⟩],
        some 180, 480, [], []⟩ : Day).get_total_break_time = .ok 1 ∧
    ((180 - 0) / 60 : Nat) = 3 ∧ (1 + 1 : Int) ≠ 3 := by
  refine ⟨by decide, by decide, by decide, by decide, by decide⟩

/-- Claim C9 (amended): for every day built from punch-in at `t0` by any
valid transition sequence that ends the day at `t1`, the work and break
interval durations in seconds sum exactly to the elapsed wall-clock time
`t1 - t0`; in whole minutes, `totalWorkMinutes + totalBreakMinutes` equals
the elapsed time only up to one minute of truncation loss:
`elapsed/60 - 1 ≤ wm + bm ≤ elapsed/60`. -/
theorem c9_amended :
    ∀ (t0 : Nat) (task : String) (target : Nat) (ops : List DayOp)
      (d : Day) (t1 : Nat) (wm bm : Int),
      (Day.new t0 task target).runOps ops = .ok d →
      d.end_time = some t1 →
      d.get_time_done = .ok wm → d.get_total_break_time = .ok bm →
      totalSeconds d.work_intervals + totalSeconds d.break_intervals
          = t1 - t0 ∧
      wm + bm ≤ (((t1 - t0) / 60 : Nat) : Int) ∧
      (((t1 - t0) / 60 : Nat) : Int) ≤ wm + bm + 1 := by
  intro t0 task target ops d t1 wm bm hrun hend hw hb
  have hinv := inv_runOps ops _ d (inv_new t0 task target) hrun
  obtain ⟨_, hcase⟩ := hinv
  rcases hcase with ⟨f, w, _, he, _⟩ | ⟨f, b2, _, he, _⟩ |
    ⟨f, hft0, hfe, _, _, hsum⟩
  · rw [hend] at he
    exact Option.noConfusion he
  · rw [hend] at he
    exact Option.noConfusion he
  · have hf : f = t1 := by
      rw [hfe] at hend
      exact Option.some.inj hend
    subst hf
    have hhe : d.has_ended = true := by simp [Day.has_ended, hend]
    have hw' : wm = ((totalSeconds d.work_intervals / 60 : Nat) : Int) := by
      simp [Day.get_time_done, hhe, Day.time_done_val] at hw
      exact hw.symm
    have hb' : bm = ((totalSeconds d.break_intervals / 60 : Nat) : Int) := by
      simp [Day.get_total_break_time, hhe, Day.break_time_val] at hb
      exact hb.symm
    subst hw' hb'
    refine ⟨hsum, ?_, ?_⟩
    all_goals
      rw [← hsum]
      have d1 := Nat.div_add_mod (totalSeconds d.work_intervals) 60
      have d2 := Nat.div_add_mod (totalSeconds d.break_intervals) 60
      have d3 := Nat.div_add_mod
        (totalSeconds d.work_intervals + totalSeconds d.break_intervals) 60
      have m1 : totalSeconds d.work_intervals % 60 < 60 :=
        Nat.mod_lt _ (by omega)
      have m2 : totalSeconds d.break_intervals % 60 < 60 :=
        Nat.mod_lt _ (by omega)
      have m3 : (totalSeconds d.work_intervals +
          totalSeconds d.break_intervals) % 60 < 60 :=
        Nat.mod_lt _ (by omega)
      omega

/-- Witness for C9 (amended) at the concrete run of the counterexample:
90 s of work and 90 s of break sum to the elapsed 180 s exactly, and the
minute totals `1 + 1` land within one minute below the elapsed `3`. -/
theorem c9_witness :
    (Day.new 0 "w" 480).runOps
        [DayOp.startBreak 30, DayOp.endBlock 120, DayOp.endDay 180] =
      .ok ⟨0, "w", [⟨0, some 30⟩, ⟨120, some 180⟩], [⟨30, some 120⟩],
            some 180, 480, [], []⟩ ∧
    (totalSeconds (⟨0, "w", [⟨0, some 30⟩, ⟨120, some 180⟩], [⟨30, some 120⟩],
          some 180, 480, [], []⟩ : Day).work_intervals +
        totalSeconds (⟨0, "w", [⟨0, some 30⟩, ⟨120, some 180⟩], [⟨30, some 120⟩],
          some 180, 480, [], []⟩ : Day).break_intervals = 180 - 0 ∧
      (1 : Int) + 1 ≤ (((180 - 0) / 60 : Nat) : Int) ∧
      (((180 - 0) / 60 : Nat) : Int) ≤ 1 + 1 + 1) :=
  ⟨by decide,
    c9_amended 0 "w" 480 [DayOp.startBreak 30, DayOp.endBlock 120, DayOp.endDay 180]
      ⟨0, "w", [⟨0, some 30⟩, ⟨120, some 180⟩], [⟨30, some 120⟩],
        some 180, 480, [], []⟩ 180 1 1
      (by decide) (by decide) (by decide) (by decide)⟩

end Punch
